import Mathlib

/-!
Verification of the FlyBase bulkfile-scripts repository: a shallow embedding
of the three inverted-index lookup scripts (`ids/fbgn_updater.py`,
`symbols/symbol_to_id_lookup.py`, `fasta/flybase_id_to_fasta.py`) and proofs
of the spec's testable properties about them.

Strings are modelled as `List Char` (`Str`); Python dictionaries as
association lists in insertion order; Python sets as duplicate-free lists in
insertion order.
-/

set_option maxHeartbeats 1000000

/-- Strings of the embedded programs: lists of characters. -/
abbrev Str := List Char

/-- Whitespace characters of Python's `str.strip` and regex `\s` (ASCII). -/
def isPySpace (c : Char) : Bool :=
  c = ' ' || c = '\t' || c = '\n' || c = '\r' || c = '\x0b' || c = '\x0c'

/-- Word characters of the regex class `\w` (ASCII inputs). -/
def isWordChar (c : Char) : Bool :=
  c.isAlpha || c.isDigit || c = '_'

/-- Digit characters of the regex class `\d`. -/
def isDigitChar (c : Char) : Bool := c.isDigit

/-- Python `str.strip()`: remove leading and trailing whitespace. -/
def pyStrip (s : Str) : Str :=
  ((s.dropWhile isPySpace).reverse.dropWhile isPySpace).reverse

/-- Cons a character onto the first piece of a split result. -/
def consToHead (c : Char) : List Str → List Str
  | [] => [[c]]
  | h :: t => (c :: h) :: t

/-- Python `str.split(sep)` with a one-character separator: splits at every
occurrence of the separator, keeping empty pieces (`"".split(t) = [""]`). -/
def splitChar (sep : Char) : Str → List Str
  | [] => [[]]
  | c :: rest =>
    if c = sep then [] :: splitChar sep rest
    else consToHead c (splitChar sep rest)

/-- Python `str.startswith(p)`. -/
def strStartsWith (p : Str) (s : Str) : Bool := p.isPrefixOf s

/-- Python substring containment `needle in haystack`. -/
def containsSub (needle : Str) : Str → Bool
  | [] => needle.isEmpty
  | c :: rest => needle.isPrefixOf (c :: rest) || containsSub needle rest

/-- `sep.join(parts)` for a one-character separator. -/
def joinSep (sep : Char) : List Str → Str
  | [] => []
  | [x] => x
  | x :: y :: t => x ++ sep :: joinSep sep (y :: t)

/-- Concatenation of a list of strings (`"".join`). -/
def listJoin : List Str → Str
  | [] => []
  | x :: t => x ++ listJoin t

/-- The inverted indices of the two lookup scripts: Python dict from string
keys to sets of strings, as an association list in insertion order with
set-values modelled as duplicate-free lists in insertion order. -/
abbrev Idx := List (Str × List Str)

/-- The FASTA extractor's index: dict from header ID to *list* of record
indices (`FastaIdx = Dict[str, List[int]]`). -/
abbrev FastaIdx := List (Str × List Nat)

/-- First-match association-list lookup: Python `d[k]` / `k in d`. -/
def alookup {α : Type} : List (Str × α) → Str → Option α
  | [], _ => none
  | (k, v) :: rest, q => if k = q then some v else alookup rest q

/-- Replace the value stored at a key (Python `d[k] = v` for a present key),
keeping the entry's position. -/
def aset {α : Type} : List (Str × α) → Str → α → List (Str × α)
  | [], _, _ => []
  | (k, u) :: rest, q, v =>
    if k = q then (q, v) :: aset rest q v else (k, u) :: aset rest q v

/-- Python `set.add`: append the element when it is not already present. -/
def setAdd (s : List Str) (x : Str) : List Str :=
  if x ∈ s then s else s ++ [x]

/-- `insert_fbid` of `ids/fbgn_updater.py`: no-op on a falsy (empty)
secondary ID; otherwise initialize `{primary}` for a fresh secondary key or
add `primary` to the existing set. -/
def insert_fbid (primary secondary : Str) (fbid_dict : Idx) : Idx :=
  if secondary = [] then fbid_dict
  else
    match alookup fbid_dict secondary with
    | none => fbid_dict ++ [(secondary, [primary])]
    | some s => aset fbid_dict secondary (setAdd s primary)

/-- `insert_symbol` of `symbols/symbol_to_id_lookup.py`: same shape as
`insert_fbid`, keyed on the symbol with the FlyBase ID as the value. -/
def insert_symbol (symbol fbid : Str) (d : Idx) : Idx :=
  if symbol = [] then d
  else
    match alookup d symbol with
    | none => d ++ [(symbol, [fbid])]
    | some s => aset d symbol (setAdd s fbid)

/-- Regex split on `,(?!\s)` of `symbols/symbol_to_id_lookup.py`
(`comma_ns_re`): split at every comma not followed by a whitespace
character. -/
def splitCommaNS : Str → List Str
  | [] => [[]]
  | c :: rest =>
    if c = ',' && !(match rest with | c2 :: _ => isPySpace c2 | [] => false) then
      [] :: splitCommaNS rest
    else consToHead c (splitCommaNS rest)

/-- The line filter of `generate_inverted_fbid_dict`:
`not line.startswith('#') and 'FBgn' in line` (on the stripped line). -/
def fbgnRowQualifies (l : Str) : Bool :=
  !(strStartsWith ("#".toList) l) && containsSub ("FBgn".toList) l

/-- Loop body of `generate_inverted_fbid_dict` over the remaining lines,
threading the dictionary and the set of current IDs.  A qualifying line with
fewer than four tab-separated columns raises `ValueError` at the unpacking
`symbol, species, primary_fbid, secondary_fbid_col, *rest = line.split('\t')`,
which is not caught inside the function: modelled as `Except.error`
carrying the stripped line. -/
def generate_inverted_fbid_aux : Idx × List Str → List Str → Except Str (Idx × List Str)
  | acc, [] => Except.ok acc
  | (d, cur), line :: rest =>
    let l := pyStrip line
    if fbgnRowQualifies l then
      match splitChar '\t' l with
      | _symbol :: _species :: primary :: secondaryCol :: _restCols =>
        generate_inverted_fbid_aux
          (List.foldl (fun dd fb => insert_fbid primary fb dd) d
             (splitChar ',' secondaryCol),
           setAdd cur primary) rest
      | _ => Except.error l
    else generate_inverted_fbid_aux (d, cur) rest

/-- `generate_inverted_fbid_dict` of `ids/fbgn_updater.py`, over the file's
lines: returns the inverted dictionary and the set of current primary IDs,
or the `ValueError` raised by a qualifying row with too few columns. -/
def generate_inverted_fbid_dict (lines : List Str) : Except Str (Idx × List Str) :=
  generate_inverted_fbid_aux ([], []) lines

/-- Per-query body of `main` in `ids/fbgn_updater.py`: a current ID prints
bare; otherwise the joined set from the inverted dictionary; a `KeyError`
(ID absent) prints `KEY\tNone`. -/
def resolve_fbid (fbid : Str) (fbid_dict : Idx) (current_ids : List Str) : Str :=
  if fbid ∈ current_ids then fbid
  else
    match alookup fbid_dict fbid with
    | some ids => fbid ++ '\t' :: joinSep '\t' ids
    | none => fbid ++ "\tNone".toList

/-- `main` of `ids/fbgn_updater.py`: one output line per user line,
stripped then resolved, in input order. -/
def fbgn_updater_main (user_lines : List Str) (fbid_dict : Idx) (current_ids : List Str) : List Str :=
  user_lines.map (fun l => resolve_fbid (pyStrip l) fbid_dict current_ids)

/-- The alias keys a well-formed symbol row inserts, in insertion order:
`cols[1]` (symbol, always), `cols[2]` (full name) when present and truthy,
and the comma-no-space splits of `cols[3]` and `cols[4]` (synonym columns)
when present and truthy. -/
def symbolRowAliases (cols : List Str) : List Str :=
  match cols with
  | _ :: c1 :: _ =>
    [c1]
    ++ (if 3 ≤ cols.length ∧ cols.getD 2 [] ≠ [] then [cols.getD 2 []] else [])
    ++ (if 4 ≤ cols.length ∧ cols.getD 3 [] ≠ [] then splitCommaNS (cols.getD 3 []) else [])
    ++ (if 5 ≤ cols.length ∧ cols.getD 4 [] ≠ [] then splitCommaNS (cols.getD 4 []) else [])
  | _ => []

/-- Per-line body of `generate_inverted_symbol_dict`: returns the updated
dictionary and an optional diagnostic (the stderr message's line).  A line
kept by the `FBgn`/`FBtr` prefix filter whose `cols[0]` or `cols[1]` access
raises `IndexError` is skipped with a diagnostic; a non-`Dmel` row is
skipped silently; otherwise the row's aliases are inserted. -/
def symbolStep (d : Idx) (line : Str) : Idx × Option Str :=
  let l := pyStrip line
  if strStartsWith ("FBgn".toList) l || strStartsWith ("FBtr".toList) l then
    match splitChar '\t' l with
    | fbid :: cols =>
      match cols with
      | [] => (d, some l)
      | c0 :: restCols =>
        if c0 ≠ "Dmel".toList then (d, none)
        else
          match restCols with
          | [] => (d, some l)
          | _ :: _ =>
            (List.foldl (fun dd a => insert_symbol a fbid dd) d (symbolRowAliases cols),
             none)
    | [] => (d, none)
  else (d, none)

/-- Loop of `generate_inverted_symbol_dict` over the remaining lines,
accumulating the dictionary and the emitted diagnostics. -/
def generate_inverted_symbol_aux (d : Idx) (diags : List Str) : List Str → Idx × List Str
  | [] => (d, diags)
  | line :: rest =>
    let s := symbolStep d line
    generate_inverted_symbol_aux s.1 (diags ++ s.2.toList) rest

/-- `generate_inverted_symbol_dict` of `symbols/symbol_to_id_lookup.py`,
over the file's lines: the inverted symbol dictionary plus the diagnostics
printed to stderr. -/
def generate_inverted_symbol_dict (lines : List Str) : Idx × List Str :=
  generate_inverted_symbol_aux [] [] lines

/-- Per-query body of the `__main__` loop of
`symbols/symbol_to_id_lookup.py`: a hit prints `SYMBOL\tID1,ID2...`; a
`KeyError` (symbol absent) prints the bare symbol. -/
def resolve_symbol (symbol : Str) (d : Idx) : Str :=
  match alookup d symbol with
  | some ids => symbol ++ '\t' :: joinSep ',' ids
  | none => symbol

/-- Order-preserving first-occurrence deduplication with an accumulator of
already-seen elements: the list model of Python's `frozenset`. -/
def dedupAux (seen : List Str) : List Str → List Str
  | [] => []
  | x :: xs => if x ∈ seen then dedupAux seen xs else x :: dedupAux (x :: seen) xs

/-- `frozenset` of a list of strings, as a duplicate-free list keeping first
occurrences in order. -/
def dedup (l : List Str) : List Str := dedupAux [] l

/-- Characters admitted by the capture class `[\w,]` of `PARENT_REGEX`. -/
def isParentChar (c : Char) : Bool := isWordChar c || c = ','

/-- Attempt to match `PARENT_REGEX` = `parent=([\w,]+);` at the start of the
string: on success return the capture and the remainder after the `;`. -/
def matchParentAt : Str → Option (Str × Str)
  | 'p' :: 'a' :: 'r' :: 'e' :: 'n' :: 't' :: '=' :: rest =>
    let run := rest.takeWhile isParentChar
    let after := rest.dropWhile isParentChar
    match after with
    | ';' :: tail => if run = [] then none else some (run, tail)
    | _ => none
  | _ => none

/-- Attempt to match `ID_TAG_REGEX` = `ID=(\w+);` at the start of the
string: on success return the capture and the remainder after the `;`. -/
def matchIdTagAt : Str → Option (Str × Str)
  | 'I' :: 'D' :: '=' :: rest =>
    let run := rest.takeWhile isWordChar
    let after := rest.dropWhile isWordChar
    match after with
    | ';' :: tail => if run = [] then none else some (run, tail)
    | _ => none
  | _ => none

/-- `re.findall` scan: try the matcher at each position left to right; on a
match emit the capture and continue after the match, else advance one
character.  The fuel starts at the string's length; every step consumes at
least one character, so the fuel never runs out before the string does. -/
def findAllAux (matchAt : Str → Option (Str × Str)) : Nat → Str → List Str
  | 0, _ => []
  | _ + 1, [] => []
  | fuel + 1, c :: rest =>
    match matchAt (c :: rest) with
    | some (cap, after) => cap :: findAllAux matchAt fuel after
    | none => findAllAux matchAt fuel rest

/-- `PARENT_REGEX.findall(s)`. -/
def findAllParent (s : Str) : List Str := findAllAux matchParentAt s.length s

/-- `ID_TAG_REGEX.findall(s)`. -/
def findAllIdTag (s : Str) : List Str := findAllAux matchIdTagAt s.length s

/-- `get_header_ids` of `fasta/flybase_id_to_fasta.py` for a given findall:
every regex match is split on commas and the results collected into a
frozenset. -/
def get_header_ids (findAll : Str → List Str) (fasta_header : Str) : List Str :=
  dedup ((findAll fasta_header).foldr (fun m acc => splitChar ',' m ++ acc) [])

/-- The tuple `(*get_header_ids(h), *get_header_ids(h, ID_TAG_REGEX))` of
`read_fasta`: parent IDs then ID-tag IDs, each frozenset separately, the
concatenation not deduplicated. -/
def headerIds (h : Str) : List Str :=
  get_header_ids findAllParent h ++ get_header_ids findAllIdTag h

/-- The index update `idx[header_id] = idx.get(header_id, []) + [i]` of
`read_fasta`: unconditionally append the record index to the (possibly
fresh) list at the header ID. -/
def fastaIdxInsert (idx : FastaIdx) (h : Str) (i : Nat) : FastaIdx :=
  match alookup idx h with
  | none => idx ++ [(h, [i])]
  | some l => aset idx h (l ++ [i])

/-- The record loop of `read_fasta`, carrying the enumeration index. -/
def build_fasta_idx_aux (i : Nat) (idx : FastaIdx) : List (Str × Str) → FastaIdx
  | [] => idx
  | (h, _) :: rest =>
    build_fasta_idx_aux (i + 1)
      (List.foldl (fun ix hid => fastaIdxInsert ix hid i) idx (headerIds h)) rest

/-- The index built by `read_fasta` from the parsed FASTA records (the
records themselves are returned unchanged as the first component). -/
def build_fasta_idx (records : List (Str × Str)) : FastaIdx :=
  build_fasta_idx_aux 0 [] records

/-- Fuel-driven loop of `chunks80`; every step consumes at least one
character, so fuel equal to the string's length never runs out early. -/
def chunksAux : Nat → Str → List Str
  | 0, _ => []
  | _ + 1, [] => []
  | fuel + 1, c :: rest => ((c :: rest).take 80) :: chunksAux fuel ((c :: rest).drop 80)

/-- Fixed-width chunking: the behaviour of `textwrap.wrap(s, width=80)` on
text containing no whitespace and no hyphen (a single unbreakable word is
cut into width-sized pieces; empty text gives no lines). -/
def chunks80 (s : Str) : List Str := chunksAux s.length s

/-- `"\n".join(wrap(seq, width=80))` of `fbid_to_fasta`. -/
def wrapSeq (s : Str) : Str := joinSep '\n' (chunks80 s)

/-- One record's text written by `fbid_to_fasta`:
`fh.write(f">{header}\n{seq}\n")` with the wrapped sequence. -/
def writeRecord (r : Str × Str) : Str :=
  '>' :: r.1 ++ '\n' :: wrapSeq r.2 ++ ['\n']

/-- The full text written for a list of selected records, in write order. -/
def write_fasta_records (rs : List (Str × Str)) : Str :=
  listJoin (rs.map writeRecord)

/-- `fbid_to_fasta` of `fasta/flybase_id_to_fasta.py`: for each requested ID
in order, `index[fbid]` (a `KeyError` for an absent key, modelled as
`Except.error` carrying the first missing ID) selects record indices whose
records are written.  Returns the written text. -/
def fbid_to_fasta (ids : List Str) (fasta : List (Str × Str)) (index : FastaIdx) :
    Except Str Str :=
  match ids with
  | [] => Except.ok []
  | fbid :: rest =>
    match alookup index fbid with
    | none => Except.error fbid
    | some is =>
      match fbid_to_fasta rest fasta index with
      | Except.error e => Except.error e
      | Except.ok out =>
        Except.ok (listJoin (is.map (fun i => writeRecord (fasta.getD i ([], [])))) ++ out)

/-- `FLYBASE_ID_REGEX` = `^\s*FB\w\w\d+\s*$` under `re.match`: leading
whitespace, literal `FB`, two word characters, one or more digits, trailing
whitespace to the end of the line. -/
def matchFlybaseId (l : Str) : Bool :=
  match l.dropWhile isPySpace with
  | c1 :: c2 :: w1 :: w2 :: rest =>
    c1 = 'F' && c2 = 'B' && isWordChar w1 && isWordChar w2 &&
      !(rest.takeWhile isDigitChar).isEmpty &&
      (rest.dropWhile isDigitChar).all isPySpace
  | _ => false

/-- `read_id_file` of `fasta/flybase_id_to_fasta.py`, over the file's raw
lines: the frozenset of the stripped lines whose raw text matches
`FLYBASE_ID_REGEX`; non-matching lines are dropped with no diagnostic. -/
def read_id_file (lines : List Str) : List Str :=
  dedup ((lines.filter matchFlybaseId).map pyStrip)

/-- A FASTA header line: starts with `>`. -/
def isHeaderLine (l : Str) : Bool :=
  match l with
  | c :: _ => c = '>'
  | [] => false

/-- Negation of `isHeaderLine`, for the sequence-line scans. -/
def notHeaderLine (l : Str) : Bool := !isHeaderLine l

/-- Split a text into its lines at `\n`. -/
def splitLines (s : Str) : List Str := splitChar '\n' s

/-- Modelled from the spec: standard FASTA parsing of "standard
two-line-per-record FASTA text" (the repository reads FASTA back through
Biopython's `SimpleFastaParser`, which is external library code).  Each
line starting with `>` opens a record whose header is the rest of that
line; the record's sequence is the concatenation of the following
non-header lines. -/
def parseFastaAux : Nat → List Str → List (Str × Str)
  | 0, _ => []
  | _ + 1, [] => []
  | fuel + 1, l :: ls =>
    if isHeaderLine l then
      (l.tail, listJoin (ls.takeWhile notHeaderLine))
        :: parseFastaAux fuel (ls.dropWhile notHeaderLine)
    else parseFastaAux fuel ls

/-- The record scan over a line list, with fuel equal to the number of
lines (each step consumes at least one line, so the fuel suffices). -/
def parseFastaLines (lines : List Str) : List (Str × Str) :=
  parseFastaAux lines.length lines

/-- Modelled from the spec: parse a FASTA text into its (header, sequence)
records. -/
def parseFasta (s : Str) : List (Str × Str) := parseFastaLines (splitLines s)

/-- Modelled from the spec: the spec's claimed accession filter, in its own
words — "`FB` + two letters + digits, optional surrounding whitespace" —
to be compared against the source's `FLYBASE_ID_REGEX` (`FB\w\w\d+`). -/
def specLetterMatch (l : Str) : Bool :=
  match l.dropWhile isPySpace with
  | 'F' :: 'B' :: w1 :: w2 :: rest =>
    w1.isAlpha && w2.isAlpha &&
      !(rest.takeWhile isDigitChar).isEmpty &&
      (rest.dropWhile isDigitChar).all isPySpace
  | _ => false

/-- Declarative form of `FLYBASE_ID_REGEX`: the line decomposes as
whitespace, `FB`, two word characters, a non-empty run of digits, and
trailing whitespace. -/
def pyFBPattern (l : Str) : Prop :=
  ∃ a w1 w2 ds b,
    l = a ++ 'F' :: 'B' :: w1 :: w2 :: (ds ++ b) ∧
    a.all isPySpace = true ∧
    isWordChar w1 = true ∧ isWordChar w2 = true ∧
    ds ≠ [] ∧ ds.all isDigitChar = true ∧
    b.all isPySpace = true

/-- Decidable equality for `Except`, used to evaluate the builders on
concrete inputs. -/
instance exceptDecEq {ε α : Type} [DecidableEq ε] [DecidableEq α] :
    DecidableEq (Except ε α) := fun a b =>
  match a, b with
  | Except.ok x, Except.ok y =>
    if h : x = y then isTrue (by rw [h]) else isFalse (by simp [h])
  | Except.error x, Except.error y =>
    if h : x = y then isTrue (by rw [h]) else isFalse (by simp [h])
  | Except.ok _, Except.error _ => isFalse (by simp)
  | Except.error _, Except.ok _ => isFalse (by simp)

/-! ### Association-list lemmas -/

theorem alookup_append_of_some {α : Type} {d e : List (Str × α)} {q : Str} {v : α}
    (h : alookup d q = some v) : alookup (d ++ e) q = some v := by
  induction d with
  | nil => simp [alookup] at h
  | cons hd tl ih =>
    obtain ⟨k, w⟩ := hd
    simp only [alookup, List.cons_append] at h ⊢
    by_cases hk : k = q
    · simpa [hk] using h
    · simp only [hk, if_false] at h ⊢
      exact ih h

theorem alookup_append_of_none {α : Type} {d : List (Str × α)} {q : Str}
    (h : alookup d q = none) (e : List (Str × α)) :
    alookup (d ++ e) q = alookup e q := by
  induction d with
  | nil => simp
  | cons hd tl ih =>
    obtain ⟨k, w⟩ := hd
    simp only [alookup] at h
    by_cases hk : k = q
    · simp [hk] at h
    · simp only [List.cons_append, alookup, hk, if_false]
      exact ih (by simpa [hk] using h)

theorem alookup_aset_self {α : Type} {d : List (Str × α)} {q : Str} {v : α}
    (h : alookup d q = some v) (w : α) : alookup (aset d q w) q = some w := by
  induction d with
  | nil => simp [alookup] at h
  | cons hd tl ih =>
    obtain ⟨k, u⟩ := hd
    simp only [alookup] at h
    by_cases hk : k = q
    · simp [aset, hk, alookup]
    · simp only [aset, hk, if_false, alookup]
      exact ih (by simpa [hk] using h)

theorem alookup_aset_ne {α : Type} (d : List (Str × α)) {q q' : Str} (w : α)
    (h : q' ≠ q) : alookup (aset d q w) q' = alookup d q' := by
  induction d with
  | nil => simp [aset]
  | cons hd tl ih =>
    obtain ⟨k, u⟩ := hd
    by_cases hk : k = q
    · subst hk
      simp only [aset, if_pos rfl, alookup, if_neg (Ne.symm h)]
      exact ih
    · simp only [aset, hk, if_false, alookup]
      by_cases hq : k = q'
      · simp [hq]
      · simp only [hq, if_false]
        exact ih

theorem mem_setAdd_self (s : List Str) (x : Str) : x ∈ setAdd s x := by
  unfold setAdd
  by_cases h : x ∈ s <;> simp [h]

theorem mem_setAdd_of_mem {s : List Str} {y : Str} (x : Str) (h : y ∈ s) :
    y ∈ setAdd s x := by
  unfold setAdd
  by_cases hx : x ∈ s <;> simp [hx, h]

/-! ### Insert lemmas -/

/-- Membership of a primary in the set stored at a key. -/
def memIdx (d : Idx) (k p : Str) : Prop :=
  ∃ s, alookup d k = some s ∧ p ∈ s

theorem insert_fbid_memIdx_self {k : Str} (hk : k ≠ []) (p : Str) (d : Idx) :
    memIdx (insert_fbid p k d) k p := by
  unfold insert_fbid
  rw [if_neg hk]
  cases h : alookup d k with
  | none =>
    refine ⟨[p], ?_, by simp⟩
    rw [alookup_append_of_none h]
    simp [alookup]
  | some s =>
    exact ⟨setAdd s p, alookup_aset_self h _, mem_setAdd_self s p⟩

theorem insert_fbid_memIdx_mono {d : Idx} {k' p' : Str} (h : memIdx d k' p')
    (p k : Str) : memIdx (insert_fbid p k d) k' p' := by
  obtain ⟨s, hs, hp⟩ := h
  unfold insert_fbid
  by_cases hk : k = []
  · exact ⟨s, by simp [hk, hs], hp⟩
  rw [if_neg hk]
  cases hl : alookup d k with
  | none => exact ⟨s, alookup_append_of_some hs, hp⟩
  | some t =>
    by_cases hkk : k' = k
    · subst hkk
      rw [hs] at hl
      obtain rfl : s = t := by injection hl
      exact ⟨setAdd s p, alookup_aset_self hs _, mem_setAdd_of_mem p hp⟩
    · exact ⟨s, by rw [alookup_aset_ne _ _ hkk]; exact hs, hp⟩

theorem foldl_insert_fbid_mono {d : Idx} {k' p' : Str} (h : memIdx d k' p')
    (p : Str) (as : List Str) :
    memIdx (List.foldl (fun dd fb => insert_fbid p fb dd) d as) k' p' := by
  induction as generalizing d with
  | nil => simpa using h
  | cons a t ih =>
    simp only [List.foldl_cons]
    exact ih (insert_fbid_memIdx_mono h p a)

theorem foldl_insert_fbid_mem {k : Str} (hk : k ≠ []) (p : Str) :
    ∀ (as : List Str), k ∈ as → ∀ (d : Idx),
      memIdx (List.foldl (fun dd fb => insert_fbid p fb dd) d as) k p := by
  intro as
  induction as with
  | nil => intro hm; cases hm
  | cons a t ih =>
    intro hm d
    simp only [List.foldl_cons]
    rcases List.mem_cons.mp hm with rfl | hm
    · exact foldl_insert_fbid_mono (insert_fbid_memIdx_self hk p d) p t
    · exact ih hm _

theorem insert_symbol_eq (a f : Str) (d : Idx) :
    insert_symbol a f d = insert_fbid f a d := rfl

theorem foldl_insert_symbol_eq (fbid : Str) (as : List Str) (d : Idx) :
    List.foldl (fun dd a => insert_symbol a fbid dd) d as
      = List.foldl (fun dd fb => insert_fbid fbid fb dd) d as := by
  simp only [insert_symbol_eq]

theorem insert_fbid_alookup_ne {q k : Str} (h : q ≠ k) (p : Str) (d : Idx) :
    alookup (insert_fbid p k d) q = alookup d q := by
  unfold insert_fbid
  by_cases hk : k = []
  · simp [hk]
  rw [if_neg hk]
  cases hl : alookup d k with
  | none =>
    cases hq : alookup d q with
    | none =>
      rw [alookup_append_of_none hq]
      simp [alookup, Ne.symm h, hq]
    | some s =>
      rw [alookup_append_of_some hq]
  | some t => exact alookup_aset_ne _ _ h

/-! ### ID-updater builder lemmas -/

theorem alookup_insert_fbid_nil {d : Idx} (h : alookup d [] = none) (p k : Str) :
    alookup (insert_fbid p k d) [] = none := by
  by_cases hk : k = []
  · simp [insert_fbid, hk, h]
  · rw [insert_fbid_alookup_ne (fun e => hk e.symm) p d]
    exact h

theorem foldl_insert_fbid_nil {d : Idx} (h : alookup d [] = none) (p : Str)
    (as : List Str) :
    alookup (List.foldl (fun dd fb => insert_fbid p fb dd) d as) [] = none := by
  induction as generalizing d with
  | nil => simpa using h
  | cons a t ih =>
    simp only [List.foldl_cons]
    exact ih (alookup_insert_fbid_nil h p a)

theorem generate_inverted_fbid_aux_mono {k p : Str} :
    ∀ (lines : List Str) (d : Idx) (cur : List Str) (res : Idx × List Str),
      generate_inverted_fbid_aux (d, cur) lines = Except.ok res →
      memIdx d k p → memIdx res.1 k p := by
  intro lines
  induction lines with
  | nil =>
    intro d cur res h hm
    simp only [generate_inverted_fbid_aux, Except.ok.injEq] at h
    rw [← h]
    exact hm
  | cons line rest ih =>
    intro d cur res h hm
    simp only [generate_inverted_fbid_aux] at h
    split at h
    · split at h
      · exact ih _ _ _ h (foldl_insert_fbid_mono hm _ _)
      · exact Except.noConfusion h
    · exact ih _ _ _ h hm

theorem generate_inverted_fbid_aux_no_nil :
    ∀ (lines : List Str) (d : Idx) (cur : List Str) (res : Idx × List Str),
      generate_inverted_fbid_aux (d, cur) lines = Except.ok res →
      alookup d [] = none → alookup res.1 [] = none := by
  intro lines
  induction lines with
  | nil =>
    intro d cur res h hm
    simp only [generate_inverted_fbid_aux, Except.ok.injEq] at h
    rw [← h]
    exact hm
  | cons line rest ih =>
    intro d cur res h hm
    simp only [generate_inverted_fbid_aux] at h
    split at h
    · split at h
      · exact ih _ _ _ h (foldl_insert_fbid_nil hm _ _)
      · exact Except.noConfusion h
    · exact ih _ _ _ h hm

theorem generate_inverted_fbid_aux_establish {k prim : Str} (hk : k ≠ []) :
    ∀ (lines : List Str) (d : Idx) (cur : List Str) (res : Idx × List Str)
      (line sym spc secCol : Str) (r4 : List Str),
      generate_inverted_fbid_aux (d, cur) lines = Except.ok res →
      line ∈ lines →
      fbgnRowQualifies (pyStrip line) = true →
      splitChar '\t' (pyStrip line) = sym :: spc :: prim :: secCol :: r4 →
      k ∈ splitChar ',' secCol →
      memIdx res.1 k prim := by
  intro lines
  induction lines with
  | nil =>
    intro d cur res line sym spc secCol r4 h hmem hq hsp hkmem
    cases hmem
  | cons l0 rest ih =>
    intro d cur res line sym spc secCol r4 h hmem hq hsp hkmem
    rcases List.mem_cons.mp hmem with rfl | hmem
    · simp only [generate_inverted_fbid_aux] at h
      rw [if_pos hq, hsp] at h
      exact generate_inverted_fbid_aux_mono rest _ _ res h
        (foldl_insert_fbid_mem hk prim _ hkmem d)
    · simp only [generate_inverted_fbid_aux] at h
      split at h
      · split at h
        · exact ih _ _ _ _ _ _ _ _ h hmem hq hsp hkmem
        · exact Except.noConfusion h
      · exact ih _ _ _ _ _ _ _ _ h hmem hq hsp hkmem

/-! ### Symbol builder lemmas -/

theorem symbolStep_mono {d : Idx} {k p : Str} (hm : memIdx d k p) (line : Str) :
    memIdx (symbolStep d line).1 k p := by
  simp only [symbolStep]
  split
  · split
    · split
      · exact hm
      · split
        · exact hm
        · split
          · exact hm
          · exact foldl_insert_fbid_mono hm _ _
    · exact hm
  · exact hm

theorem symbolStep_no_nil {d : Idx} (hm : alookup d [] = none) (line : Str) :
    alookup (symbolStep d line).1 [] = none := by
  simp only [symbolStep]
  split
  · split
    · split
      · exact hm
      · split
        · exact hm
        · split
          · exact hm
          · exact foldl_insert_fbid_nil hm _ _
    · exact hm
  · exact hm

theorem generate_inverted_symbol_aux_mono {k p : Str} :
    ∀ (lines : List Str) (d : Idx) (diags : List Str),
      memIdx d k p → memIdx (generate_inverted_symbol_aux d diags lines).1 k p := by
  intro lines
  induction lines with
  | nil => intro d diags hm; exact hm
  | cons line rest ih =>
    intro d diags hm
    simp only [generate_inverted_symbol_aux]
    exact ih _ _ (symbolStep_mono hm line)

theorem generate_inverted_symbol_aux_no_nil :
    ∀ (lines : List Str) (d : Idx) (diags : List Str),
      alookup d [] = none →
      alookup (generate_inverted_symbol_aux d diags lines).1 [] = none := by
  intro lines
  induction lines with
  | nil => intro d diags hm; exact hm
  | cons line rest ih =>
    intro d diags hm
    simp only [generate_inverted_symbol_aux]
    exact ih _ _ (symbolStep_no_nil hm line)

theorem symbolStep_establish {k line fbid c1 : Str} {rcols : List Str} (hk : k ≠ [])
    (hpre : (strStartsWith ("FBgn".toList) (pyStrip line)
              || strStartsWith ("FBtr".toList) (pyStrip line)) = true)
    (hsp : splitChar '\t' (pyStrip line) = fbid :: "Dmel".toList :: c1 :: rcols)
    (hkmem : k ∈ symbolRowAliases ("Dmel".toList :: c1 :: rcols))
    (d : Idx) : memIdx (symbolStep d line).1 k fbid := by
  simp only [symbolStep]
  rw [if_pos hpre, hsp]
  simp only []
  rw [if_neg (by simp)]
  exact foldl_insert_fbid_mem hk fbid _ hkmem d

theorem generate_inverted_symbol_aux_establish {k : Str} (hk : k ≠ []) :
    ∀ (lines : List Str) (d : Idx) (diags : List Str) (line fbid c1 : Str)
      (rcols : List Str),
      line ∈ lines →
      (strStartsWith ("FBgn".toList) (pyStrip line)
        || strStartsWith ("FBtr".toList) (pyStrip line)) = true →
      splitChar '\t' (pyStrip line) = fbid :: "Dmel".toList :: c1 :: rcols →
      k ∈ symbolRowAliases ("Dmel".toList :: c1 :: rcols) →
      memIdx (generate_inverted_symbol_aux d diags lines).1 k fbid := by
  intro lines
  induction lines with
  | nil =>
    intro d diags line fbid c1 rcols hmem
    cases hmem
  | cons l0 rest ih =>
    intro d diags line fbid c1 rcols hmem hpre hsp hkmem
    rcases List.mem_cons.mp hmem with rfl | hmem
    · simp only [generate_inverted_symbol_aux]
      exact generate_inverted_symbol_aux_mono rest _ _
        (symbolStep_establish hk hpre hsp hkmem d)
    · simp only [generate_inverted_symbol_aux]
      exact ih _ _ _ _ _ _ hmem hpre hsp hkmem

/-! ### FASTA index builder lemmas -/

/-- Membership of a record index in the list stored at a header ID. -/
def memNatIdx (d : FastaIdx) (k : Str) (i : Nat) : Prop :=
  ∃ l, alookup d k = some l ∧ i ∈ l

theorem fastaIdxInsert_self (idx : FastaIdx) (h : Str) (i : Nat) :
    memNatIdx (fastaIdxInsert idx h i) h i := by
  unfold fastaIdxInsert
  cases hl : alookup idx h with
  | none =>
    refine ⟨[i], ?_, by simp⟩
    rw [alookup_append_of_none hl]
    simp [alookup]
  | some l =>
    exact ⟨l ++ [i], alookup_aset_self hl _, by simp⟩

theorem fastaIdxInsert_mono {idx : FastaIdx} {k : Str} {i : Nat}
    (hm : memNatIdx idx k i) (h : Str) (j : Nat) :
    memNatIdx (fastaIdxInsert idx h j) k i := by
  obtain ⟨l, hl, hi⟩ := hm
  unfold fastaIdxInsert
  cases hh : alookup idx h with
  | none => exact ⟨l, alookup_append_of_some hl, hi⟩
  | some t =>
    by_cases hkk : k = h
    · subst hkk
      rw [hl] at hh
      obtain rfl : l = t := by injection hh
      exact ⟨l ++ [j], alookup_aset_self hl _, by simp [hi]⟩
    · exact ⟨l, by rw [alookup_aset_ne _ _ hkk]; exact hl, hi⟩

theorem foldl_fastaIdxInsert_mono {idx : FastaIdx} {k : Str} {i : Nat}
    (hm : memNatIdx idx k i) (j : Nat) (hids : List Str) :
    memNatIdx (List.foldl (fun ix hid => fastaIdxInsert ix hid j) idx hids) k i := by
  induction hids generalizing idx with
  | nil => simpa using hm
  | cons a t ih =>
    simp only [List.foldl_cons]
    exact ih (fastaIdxInsert_mono hm a j)

theorem foldl_fastaIdxInsert_mem {k : Str} (j : Nat) :
    ∀ (hids : List Str), k ∈ hids → ∀ (idx : FastaIdx),
      memNatIdx (List.foldl (fun ix hid => fastaIdxInsert ix hid j) idx hids) k j := by
  intro hids
  induction hids with
  | nil => intro hm; cases hm
  | cons a t ih =>
    intro hm idx
    simp only [List.foldl_cons]
    rcases List.mem_cons.mp hm with rfl | hm
    · exact foldl_fastaIdxInsert_mono (fastaIdxInsert_self idx k j) j t
    · exact ih hm _

theorem build_fasta_idx_aux_mono {k : Str} {i : Nat} :
    ∀ (recs : List (Str × Str)) (j : Nat) (idx : FastaIdx),
      memNatIdx idx k i → memNatIdx (build_fasta_idx_aux j idx recs) k i := by
  intro recs
  induction recs with
  | nil => intro j idx hm; exact hm
  | cons r rest ih =>
    intro j idx hm
    obtain ⟨h, s⟩ := r
    simp only [build_fasta_idx_aux]
    exact ih _ _ (foldl_fastaIdxInsert_mono hm j (headerIds h))

theorem build_fasta_idx_aux_establish {hid : Str} :
    ∀ (recs : List (Str × Str)) (j : Nat) (idx : FastaIdx) (n : Nat)
      (hn : n < recs.length),
      hid ∈ headerIds (recs.get ⟨n, hn⟩).1 →
      memNatIdx (build_fasta_idx_aux j idx recs) hid (j + n) := by
  intro recs
  induction recs with
  | nil =>
    intro j idx n hn
    exact absurd hn (by simp)
  | cons r rest ih =>
    intro j idx n hn hmem
    obtain ⟨h, s⟩ := r
    cases n with
    | zero =>
      simp only [List.get] at hmem
      simp only [build_fasta_idx_aux, Nat.add_zero]
      exact build_fasta_idx_aux_mono rest _ _
        (foldl_fastaIdxInsert_mem j (headerIds h) hmem idx)
    | succ m =>
      simp only [List.get] at hmem
      simp only [build_fasta_idx_aux]
      rw [show j + (m + 1) = (j + 1) + m by omega]
      exact ih (j + 1) _ m (by simpa using Nat.lt_of_succ_lt_succ hn) hmem

/-! ### Round-trip machinery for the FASTA writer -/

theorem listJoin_append (a b : List Str) :
    listJoin (a ++ b) = listJoin a ++ listJoin b := by
  induction a with
  | nil => rfl
  | cons x t ih => simp [listJoin, ih]

theorem chunksAux_join :
    ∀ (fuel : Nat) (s : Str), s.length ≤ fuel →
      listJoin (chunksAux fuel s) = s := by
  intro fuel
  induction fuel with
  | zero =>
    intro s hs
    obtain rfl : s = [] := List.eq_nil_of_length_eq_zero (Nat.le_zero.mp hs)
    rfl
  | succ f ih =>
    intro s hs
    cases s with
    | nil => rfl
    | cons c rest =>
      simp only [chunksAux, listJoin]
      rw [ih ((c :: rest).drop 80) (by simp at hs ⊢; omega)]
      exact List.take_append_drop 80 (c :: rest)

theorem chunksAux_mem_subset :
    ∀ (fuel : Nat) (s c : Str), c ∈ chunksAux fuel s → ∀ x ∈ c, x ∈ s := by
  intro fuel
  induction fuel with
  | zero => intro s c hc; cases hc
  | succ f ih =>
    intro s c hc x hx
    cases s with
    | nil => cases hc
    | cons a rest =>
      rcases List.mem_cons.mp hc with rfl | hc
      · exact List.take_subset _ _ hx
      · exact List.drop_subset _ _ (ih _ _ hc x hx)

theorem chunksAux_ne_nil :
    ∀ (fuel : Nat) (s c : Str), c ∈ chunksAux fuel s → c ≠ [] := by
  intro fuel
  induction fuel with
  | zero => intro s c hc; cases hc
  | succ f ih =>
    intro s c hc
    cases s with
    | nil => cases hc
    | cons a rest =>
      rcases List.mem_cons.mp hc with rfl | hc
      · simp [List.take_succ_cons]
      · exact ih _ _ hc

theorem splitChar_nonmem {sep : Char} :
    ∀ {xs : Str}, sep ∉ xs → splitChar sep xs = [xs] := by
  intro xs
  induction xs with
  | nil => intro _; rfl
  | cons c rest ih =>
    intro h
    have hc : ¬(c = sep) := fun e => h (by simp [e])
    have hr : sep ∉ rest := fun e => h (List.mem_cons_of_mem _ e)
    simp [splitChar, hc, ih hr, consToHead]

theorem splitChar_append_sep {sep : Char} :
    ∀ {xs : Str} (ys : Str), sep ∉ xs →
      splitChar sep (xs ++ sep :: ys) = xs :: splitChar sep ys := by
  intro xs
  induction xs with
  | nil => intro ys _; simp [splitChar]
  | cons c rest ih =>
    intro ys h
    have hc : ¬(c = sep) := fun e => h (by simp [e])
    have hr : sep ∉ rest := fun e => h (List.mem_cons_of_mem _ e)
    simp [splitChar, hc, ih ys hr, consToHead]

theorem splitChar_joinSep_append {sep : Char} :
    ∀ (parts : List Str) (T : Str), parts ≠ [] → (∀ p ∈ parts, sep ∉ p) →
      splitChar sep (joinSep sep parts ++ sep :: T) = parts ++ splitChar sep T := by
  intro parts
  induction parts with
  | nil => intro T h; exact absurd rfl h
  | cons x t ih =>
    intro T _ hall
    cases t with
    | nil =>
      simp only [joinSep]
      rw [splitChar_append_sep T (hall x (by simp))]
      rfl
    | cons y tt =>
      have h1 : joinSep sep (x :: y :: tt) ++ sep :: T
          = x ++ sep :: (joinSep sep (y :: tt) ++ sep :: T) := by
        simp [joinSep, List.append_assoc]
      rw [h1, splitChar_append_sep _ (hall x (by simp)),
        ih T (by simp) (fun p hp => hall p (List.mem_cons_of_mem _ hp))]
      rfl

theorem takeWhile_append_all {α : Type} {p : α → Bool} :
    ∀ {A : List α} (B : List α), (∀ a ∈ A, p a = true) →
      (A ++ B).takeWhile p = A ++ B.takeWhile p := by
  intro A
  induction A with
  | nil => intro B _; rfl
  | cons a t ih =>
    intro B h
    simp only [List.cons_append, List.takeWhile_cons, h a (by simp), if_pos]
    rw [ih B (fun x hx => h x (List.mem_cons_of_mem _ hx))]

theorem dropWhile_append_all {α : Type} {p : α → Bool} :
    ∀ {A : List α} (B : List α), (∀ a ∈ A, p a = true) →
      (A ++ B).dropWhile p = B.dropWhile p := by
  intro A
  induction A with
  | nil => intro B _; rfl
  | cons a t ih =>
    intro B h
    simp only [List.cons_append, List.dropWhile_cons, h a (by simp), if_pos]
    exact ih B (fun x hx => h x (List.mem_cons_of_mem _ hx))

/-- The line list a sequence contributes to the written file: one empty
line for the empty sequence, else its 80-character chunks. -/
def seqLines (s : Str) : List Str := if s = [] then [[]] else chunks80 s

/-- The line list one record contributes to the written file. -/
def recLines (r : Str × Str) : List Str := ('>' :: r.1) :: seqLines r.2

/-- The line list of the whole written file (before the final newline). -/
def linesOf : List (Str × Str) → List Str
  | [] => []
  | r :: rest => recLines r ++ linesOf rest

theorem listJoin_seqLines (s : Str) : listJoin (seqLines s) = s := by
  unfold seqLines
  by_cases hs : s = []
  · simp [hs, listJoin]
  · rw [if_neg hs]
    exact chunksAux_join s.length s (Nat.le_refl _)

theorem seqLines_not_header {s : Str} (hs : ∀ c ∈ s, ¬(c = '>')) :
    ∀ l ∈ seqLines s, notHeaderLine l = true := by
  intro l hl
  unfold seqLines at hl
  by_cases h0 : s = []
  · rw [if_pos h0] at hl
    simp at hl
    subst hl
    rfl
  · rw [if_neg h0] at hl
    have hne : l ≠ [] := chunksAux_ne_nil _ _ _ hl
    cases l with
    | nil => exact absurd rfl hne
    | cons c t =>
      have hc : c ∈ s := chunksAux_mem_subset _ _ _ hl c (by simp)
      simp [notHeaderLine, isHeaderLine, hs c hc]

theorem seqLines_no_newline {s : Str} (hs : ∀ c ∈ s, isPySpace c = false) :
    ∀ l ∈ seqLines s, '\n' ∉ l := by
  intro l hl hmem
  unfold seqLines at hl
  by_cases h0 : s = []
  · rw [if_pos h0] at hl
    simp at hl
    subst hl
    cases hmem
  · rw [if_neg h0] at hl
    have : isPySpace '\n' = false :=
      hs '\n' (chunksAux_mem_subset _ _ _ hl '\n' hmem)
    simp [isPySpace] at this

theorem splitLines_write :
    ∀ (rs : List (Str × Str)),
      (∀ r ∈ rs, '\n' ∉ r.1 ∧ ∀ c ∈ r.2, isPySpace c = false) →
      splitLines (write_fasta_records rs) = linesOf rs ++ [[]] := by
  intro rs
  induction rs with
  | nil => intro _; rfl
  | cons r rest ih =>
    intro hgood
    obtain ⟨h, s⟩ := r
    obtain ⟨hh, hs⟩ := hgood (h, s) (by simp)
    have hrest := fun r hr => hgood r (List.mem_cons_of_mem _ hr)
    have hstep : write_fasta_records ((h, s) :: rest)
        = ('>' :: h) ++ '\n' :: (wrapSeq s ++ '\n' :: write_fasta_records rest) := by
      simp [write_fasta_records, writeRecord, listJoin, List.append_assoc]
    have hnotin : '\n' ∉ ('>' :: h) := by
      intro hmem
      rcases List.mem_cons.mp hmem with he | he
      · cases he
      · exact hh he
    unfold splitLines at ih ⊢
    rw [hstep, splitChar_append_sep _ hnotin]
    by_cases h0 : s = []
    · subst h0
      have : wrapSeq ([] : Str) = [] := rfl
      rw [this]
      simp only [List.nil_append, splitChar, if_pos rfl]
      rw [ih hrest]
      simp [linesOf, recLines, seqLines]
    · have hparts : chunks80 s ≠ [] := by
        cases s with
        | nil => exact absurd rfl h0
        | cons c t => simp [chunks80, chunksAux]
      have hpartsnl : ∀ p ∈ chunks80 s, '\n' ∉ p := by
        intro p hp hmem
        have : isPySpace '\n' = false :=
          hs '\n' (chunksAux_mem_subset _ _ _ hp '\n' hmem)
        simp [isPySpace] at this
      rw [show wrapSeq s = joinSep '\n' (chunks80 s) from rfl]
      rw [splitChar_joinSep_append _ _ hparts hpartsnl]
      rw [ih hrest]
      simp [linesOf, recLines, seqLines, h0]

theorem parseFastaAux_nil : ∀ (fuel : Nat), parseFastaAux fuel [] = [] := by
  intro fuel
  cases fuel <;> rfl

theorem parse_linesOf :
    ∀ (rs : List (Str × Str)) (fuel : Nat),
      (linesOf rs ++ [[]]).length ≤ fuel →
      (∀ r ∈ rs, ∀ c ∈ r.2, isPySpace c = false ∧ ¬(c = '>')) →
      parseFastaAux fuel (linesOf rs ++ [[]]) = rs := by
  intro rs
  induction rs with
  | nil =>
    intro fuel hf _
    cases fuel with
    | zero => simp [linesOf] at hf
    | succ f =>
      simp only [linesOf, List.nil_append]
      have : isHeaderLine [] = false := rfl
      simp only [parseFastaAux, this, Bool.false_eq_true, if_false]
      exact parseFastaAux_nil f
  | cons r rest ih =>
    intro fuel hf hgood
    obtain ⟨h, s⟩ := r
    obtain ⟨hs1, hs2⟩ :
        (∀ c ∈ s, isPySpace c = false) ∧ (∀ c ∈ s, ¬(c = '>')) := by
      constructor <;> intro c hc
      · exact (hgood (h, s) (by simp) c hc).1
      · exact (hgood (h, s) (by simp) c hc).2
    have hrest := fun r hr => hgood r (List.mem_cons_of_mem _ hr)
    have hseqnh : ∀ l ∈ seqLines s, notHeaderLine l = true := seqLines_not_header hs2
    cases fuel with
    | zero =>
      exfalso
      simp [linesOf, recLines] at hf
    | succ f =>
      have hshape : linesOf ((h, s) :: rest) ++ [[]]
          = ('>' :: h) :: (seqLines s ++ (linesOf rest ++ [[]])) := by
        simp [linesOf, recLines, List.append_assoc]
      rw [hshape]
      have hhead : isHeaderLine ('>' :: h) = true := by simp [isHeaderLine]
      simp only [parseFastaAux, hhead, if_pos, List.tail_cons]
      rw [takeWhile_append_all _ hseqnh, dropWhile_append_all _ hseqnh]
      cases rest with
      | nil =>
        have ht : List.takeWhile notHeaderLine (linesOf ([] : List (Str × Str)) ++ [[]])
            = [[]] := rfl
        have hd : List.dropWhile notHeaderLine (linesOf ([] : List (Str × Str)) ++ [[]])
            = [] := rfl
        rw [ht, hd, parseFastaAux_nil]
        rw [listJoin_append, listJoin_seqLines]
        simp [listJoin]
      | cons r2 rest2 =>
        obtain ⟨h2, s2⟩ := r2
        have hshape2 : linesOf ((h2, s2) :: rest2) ++ [[]]
            = ('>' :: h2) :: (seqLines s2 ++ (linesOf rest2 ++ [[]])) := by
          simp [linesOf, recLines, List.append_assoc]
        have hnh2 : notHeaderLine ('>' :: h2) = false := by
          simp [notHeaderLine, isHeaderLine]
        have ht : List.takeWhile notHeaderLine (linesOf ((h2, s2) :: rest2) ++ [[]])
            = [] := by
          rw [hshape2, List.takeWhile_cons, hnh2]
          simp
        have hd : List.dropWhile notHeaderLine (linesOf ((h2, s2) :: rest2) ++ [[]])
            = linesOf ((h2, s2) :: rest2) ++ [[]] := by
          rw [hshape2, List.dropWhile_cons, hnh2]
          simp
        rw [ht, hd]
        rw [List.append_nil, listJoin_seqLines]
        rw [ih f ?_ hrest]
        · have hlen : (linesOf ((h, s) :: ((h2, s2) :: rest2)) ++ [[]]).length ≤ f + 1 := hf
          rw [hshape] at hlen
          simp at hlen ⊢
          omega

/-! ### ID-file filter machinery -/

theorem mem_dedupAux :
    ∀ (l seen : List Str) (x : Str), x ∈ dedupAux seen l ↔ (x ∈ l ∧ x ∉ seen) := by
  intro l
  induction l with
  | nil => simp [dedupAux]
  | cons y ys ih =>
    intro seen x
    unfold dedupAux
    by_cases hy : y ∈ seen
    · rw [if_pos hy, ih seen x]
      constructor
      · rintro ⟨hx, hs⟩
        exact ⟨List.mem_cons_of_mem _ hx, hs⟩
      · rintro ⟨hx, hs⟩
        rcases List.mem_cons.mp hx with rfl | hx
        · exact absurd hy hs
        · exact ⟨hx, hs⟩
    · rw [if_neg hy]
      constructor
      · intro hx
        rcases List.mem_cons.mp hx with rfl | hx
        · exact ⟨List.mem_cons_self _ _, hy⟩
        · obtain ⟨h1, h2⟩ := (ih _ x).mp hx
          exact ⟨List.mem_cons_of_mem _ h1,
            fun hs => h2 (List.mem_cons_of_mem _ hs)⟩
      · rintro ⟨hx, hs⟩
        rcases List.mem_cons.mp hx with rfl | hx
        · exact List.mem_cons_self _ _
        · by_cases hxy : x = y
          · subst hxy
            exact List.mem_cons_self _ _
          · refine List.mem_cons_of_mem _ ((ih _ x).mpr ⟨hx, ?_⟩)
            intro hm
            rcases List.mem_cons.mp hm with he | he
            · exact hxy he
            · exact hs he

theorem mem_dedup (l : List Str) (x : Str) : x ∈ dedup l ↔ x ∈ l := by
  rw [dedup, mem_dedupAux]
  simp

theorem mem_takeWhile {α : Type} {p : α → Bool} :
    ∀ {l : List α} {x : α}, x ∈ l.takeWhile p → p x = true := by
  intro l
  induction l with
  | nil => intro x hx; cases hx
  | cons a t ih =>
    intro x hx
    rw [List.takeWhile_cons] at hx
    by_cases ha : p a = true
    · rw [if_pos ha] at hx
      rcases List.mem_cons.mp hx with rfl | hx
      · exact ha
      · exact ih hx
    · rw [if_neg ha] at hx
      cases hx

theorem takeWhile_eq_nil {α : Type} {p : α → Bool} {l : List α}
    (h : ∀ x ∈ l, p x = false) : l.takeWhile p = [] := by
  cases l with
  | nil => rfl
  | cons a t => simp [List.takeWhile_cons, h a (by simp)]

theorem dropWhile_eq_self {α : Type} {p : α → Bool} {l : List α}
    (h : ∀ x ∈ l, p x = false) : l.dropWhile p = l := by
  cases l with
  | nil => rfl
  | cons a t => simp [List.dropWhile_cons, h a (by simp)]

theorem isPySpace_not_digit {c : Char} (h : isPySpace c = true) :
    isDigitChar c = false := by
  have h6 : ((((c = ' ' ∨ c = '\t') ∨ c = '\n') ∨ c = '\r') ∨ c = '\x0b') ∨ c = '\x0c' := by
    simpa [isPySpace] using h
  rcases h6 with ((((rfl | rfl) | rfl) | rfl) | rfl) | rfl <;> rfl

theorem matchFlybaseId_iff (l : Str) : matchFlybaseId l = true ↔ pyFBPattern l := by
  constructor
  · intro h
    unfold matchFlybaseId at h
    have hsplit := List.takeWhile_append_dropWhile (p := isPySpace) (l := l)
    rcases hl1 : l.dropWhile isPySpace with _ | ⟨c1, _ | ⟨c2, _ | ⟨w1, _ | ⟨w2, rest⟩⟩⟩⟩ <;>
        rw [hl1] at h hsplit
    · exact Bool.noConfusion h
    · exact Bool.noConfusion h
    · exact Bool.noConfusion h
    · exact Bool.noConfusion h
    · simp only [Bool.and_eq_true] at h
      obtain ⟨⟨⟨⟨⟨hA, hB⟩, hC⟩, hD⟩, hE⟩, hF⟩ := h
      have hc1 : c1 = 'F' := by simpa using hA
      have hc2 : c2 = 'B' := by simpa using hB
      subst hc1
      subst hc2
      have hne : rest.takeWhile isDigitChar ≠ [] := by
        intro e
        rw [e] at hE
        exact Bool.noConfusion hE
      refine ⟨l.takeWhile isPySpace, w1, w2, rest.takeWhile isDigitChar,
        rest.dropWhile isDigitChar, ?_, ?_, hC, hD, hne, ?_, hF⟩
      · rw [List.takeWhile_append_dropWhile]
        exact hsplit.symm
      · rw [List.all_eq_true]
        intro x hx
        exact mem_takeWhile hx
      · rw [List.all_eq_true]
        intro x hx
        exact mem_takeWhile hx
  · rintro ⟨a, w1, w2, ds, b, rfl, ha, hw1, hw2, hds, hdsall, hball⟩
    unfold matchFlybaseId
    have hFns : isPySpace 'F' = false := by decide
    have hdrop : (a ++ 'F' :: 'B' :: w1 :: w2 :: (ds ++ b)).dropWhile isPySpace
        = 'F' :: 'B' :: w1 :: w2 :: (ds ++ b) := by
      rw [dropWhile_append_all _ (fun x hx => (List.all_eq_true).mp ha x hx)]
      simp [List.dropWhile_cons, hFns]
    rw [hdrop]
    have h1 : List.takeWhile isDigitChar (ds ++ b) = ds := by
      rw [takeWhile_append_all _ (fun x hx => (List.all_eq_true).mp hdsall x hx)]
      rw [takeWhile_eq_nil
        (fun x hx => isPySpace_not_digit ((List.all_eq_true).mp hball x hx))]
      simp
    have h2 : List.dropWhile isDigitChar (ds ++ b) = b := by
      rw [dropWhile_append_all _ (fun x hx => (List.all_eq_true).mp hdsall x hx)]
      exact dropWhile_eq_self
        (fun x hx => isPySpace_not_digit ((List.all_eq_true).mp hball x hx))
    simp [h1, h2, hball, hw1, hw2, hds]

theorem mem_read_id_file (lines : List Str) (s : Str) :
    s ∈ read_id_file lines ↔
      ∃ l, l ∈ lines ∧ matchFlybaseId l = true ∧ s = pyStrip l := by
  unfold read_id_file
  rw [mem_dedup]
  constructor
  · intro hs
    obtain ⟨l, hl, he⟩ := List.mem_map.mp hs
    obtain ⟨h1, h2⟩ := List.mem_filter.mp hl
    exact ⟨l, h1, h2, he.symm⟩
  · rintro ⟨l, h1, h2, rfl⟩
    exact List.mem_map.mpr ⟨l, List.mem_filter.mpr ⟨h1, h2⟩, rfl⟩

/-! ### Malformed-row and missing-key lemmas -/

theorem consToHead_ne_nil (c : Char) : ∀ (l : List Str), consToHead c l ≠ [] := by
  intro l
  cases l <;> simp [consToHead]

theorem splitChar_ne_nil (sep : Char) : ∀ (s : Str), splitChar sep s ≠ [] := by
  intro s
  cases s with
  | nil => simp [splitChar]
  | cons c rest =>
    simp only [splitChar]
    by_cases h : c = sep
    · simp [h]
    · simp only [h, if_false]
      exact consToHead_ne_nil c _

theorem symbolStep_malformed {line : Str}
    (hpre : (strStartsWith ("FBgn".toList) (pyStrip line)
              || strStartsWith ("FBtr".toList) (pyStrip line)) = true)
    (hcols : (splitChar '\t' (pyStrip line)).tail = []
              ∨ (splitChar '\t' (pyStrip line)).tail = ["Dmel".toList])
    (d : Idx) : symbolStep d line = (d, some (pyStrip line)) := by
  simp only [symbolStep]
  rw [if_pos hpre]
  rcases hsp : splitChar '\t' (pyStrip line) with _ | ⟨fbid, cols⟩
  · exact absurd hsp (splitChar_ne_nil _ _)
  · rw [hsp] at hcols
    simp only [List.tail_cons] at hcols
    rcases hcols with rfl | rfl
    · rfl
    · simp

theorem generate_inverted_symbol_aux_diag_step {line : Str} (d : Idx)
    (diags : List Str) (rest : List Str)
    (h : symbolStep d line = (d, some (pyStrip line))) :
    generate_inverted_symbol_aux d diags (line :: rest)
      = generate_inverted_symbol_aux d (diags ++ [pyStrip line]) rest := by
  simp only [generate_inverted_symbol_aux, h, Option.toList]

theorem generate_inverted_fbid_aux_abort {line : Str}
    (hq : fbgnRowQualifies (pyStrip line) = true)
    (hshort : (splitChar '\t' (pyStrip line)).length < 4)
    (acc : Idx × List Str) (rest : List Str) :
    generate_inverted_fbid_aux acc (line :: rest) = Except.error (pyStrip line) := by
  obtain ⟨d, cur⟩ := acc
  simp only [generate_inverted_fbid_aux]
  rw [if_pos hq]
  rcases hsp : splitChar '\t' (pyStrip line) with _ | ⟨a, _ | ⟨b, _ | ⟨c, _ | ⟨e, r⟩⟩⟩⟩ <;>
      try rfl
  exfalso
  rw [hsp] at hshort
  simp only [List.length_cons] at hshort
  omega

theorem fbid_to_fasta_error {fbid : Str} :
    ∀ (ids : List Str) (fasta : List (Str × Str)) (index : FastaIdx),
      fbid ∈ ids → alookup index fbid = none →
      ∃ e, fbid_to_fasta ids fasta index = Except.error e := by
  intro ids
  induction ids with
  | nil => intro fasta index hmem; cases hmem
  | cons h t ih =>
    intro fasta index hmem hnone
    rcases List.mem_cons.mp hmem with rfl | hmem
    · refine ⟨fbid, ?_⟩
      simp only [fbid_to_fasta, hnone]
    · simp only [fbid_to_fasta]
      cases hl : alookup index h with
      | none => exact ⟨h, rfl⟩
      | some is =>
        obtain ⟨e, he⟩ := ih fasta index hmem hnone
        rw [he]
        exact ⟨e, rfl⟩


/-! ### Claim theorems -/

/-- C1: for every source row successfully parsed by any of the three index
builders (an ID-mapping row that qualifies and splits into at least four
columns; a symbol row passing the prefix and Dmel filters with at least
three tab-separated fields; a FASTA record), every alias key it contributes
(nonempty, hence actually inserted for the two dict builders) is present in
the resulting inverted index and maps to a non-empty collection containing
that row's primary key. -/
theorem c1_alias_contains_introducing_primary :
    (∀ (lines : List Str) (d : Idx) (cur : List Str) (line sym spc prim secCol : Str)
       (r4 : List Str) (k : Str),
       generate_inverted_fbid_dict lines = Except.ok (d, cur) →
       line ∈ lines →
       fbgnRowQualifies (pyStrip line) = true →
       splitChar '\t' (pyStrip line) = sym :: spc :: prim :: secCol :: r4 →
       k ∈ splitChar ',' secCol → k ≠ [] →
       ∃ s, alookup d k = some s ∧ s ≠ [] ∧ prim ∈ s)
  ∧ (∀ (lines : List Str) (line fbid c1 : Str) (rcols : List Str) (k : Str),
       line ∈ lines →
       (strStartsWith ("FBgn".toList) (pyStrip line)
         || strStartsWith ("FBtr".toList) (pyStrip line)) = true →
       splitChar '\t' (pyStrip line) = fbid :: "Dmel".toList :: c1 :: rcols →
       k ∈ symbolRowAliases ("Dmel".toList :: c1 :: rcols) → k ≠ [] →
       ∃ s, alookup (generate_inverted_symbol_dict lines).1 k = some s ∧
         s ≠ [] ∧ fbid ∈ s)
  ∧ (∀ (records : List (Str × Str)) (n : Nat) (hn : n < records.length) (hid : Str),
       hid ∈ headerIds (records.get ⟨n, hn⟩).1 →
       ∃ l, alookup (build_fasta_idx records) hid = some l ∧ l ≠ [] ∧ n ∈ l) := by
  refine ⟨?_, ?_, ?_⟩
  · intro lines d cur line sym spc prim secCol r4 k hok hmem hq hsp hkmem hk
    obtain ⟨s, hs, hp⟩ := generate_inverted_fbid_aux_establish hk lines [] []
      (d, cur) line sym spc secCol r4 hok hmem hq hsp hkmem
    exact ⟨s, hs, List.ne_nil_of_mem hp, hp⟩
  · intro lines line fbid c1 rcols k hmem hpre hsp hkmem hk
    obtain ⟨s, hs, hp⟩ := generate_inverted_symbol_aux_establish hk lines [] []
      line fbid c1 rcols hmem hpre hsp hkmem
    exact ⟨s, hs, List.ne_nil_of_mem hp, hp⟩
  · intro records n hn hid hmem
    have hres := build_fasta_idx_aux_establish records 0 [] n hn hmem
    rw [Nat.zero_add] at hres
    obtain ⟨l, hl, hi⟩ := hres
    exact ⟨l, hl, List.ne_nil_of_mem hi, hi⟩

/-- C1 witness: the three parts of `c1_alias_contains_introducing_primary`
applied to concrete rows of each script. -/
theorem c1_witness :
    (∃ s, alookup [("FBgn99".toList, ["FBgn2".toList]),
                   ("FBgn100".toList, ["FBgn2".toList])] ("FBgn99".toList)
            = some s ∧ s ≠ [] ∧ "FBgn2".toList ∈ s)
  ∧ (∃ s, alookup (generate_inverted_symbol_dict
            ["FBgn0000001\tDmel\tsymA\tFull Name\tsyn1,syn2\tssyn1, has comma".toList]).1
            ("syn1".toList) = some s ∧ s ≠ [] ∧ "FBgn0000001".toList ∈ s)
  ∧ (∃ l, alookup (build_fasta_idx [("ID=FBgn1; parent=FBgn1;".toList, "ACGT".toList)])
            ("FBgn1".toList) = some l ∧ l ≠ [] ∧ 0 ∈ l) := by
  refine ⟨?_, ?_, ?_⟩
  · exact c1_alias_contains_introducing_primary.1
      ["sym\tDmel\tFBgn2\tFBgn99,FBgn100\tx".toList]
      [("FBgn99".toList, ["FBgn2".toList]), ("FBgn100".toList, ["FBgn2".toList])]
      ["FBgn2".toList]
      ("sym\tDmel\tFBgn2\tFBgn99,FBgn100\tx".toList)
      ("sym".toList) ("Dmel".toList) ("FBgn2".toList) ("FBgn99,FBgn100".toList)
      ["x".toList] ("FBgn99".toList)
      (by decide) (by decide) (by decide) (by decide) (by decide) (by decide)
  · exact c1_alias_contains_introducing_primary.2.1
      ["FBgn0000001\tDmel\tsymA\tFull Name\tsyn1,syn2\tssyn1, has comma".toList]
      ("FBgn0000001\tDmel\tsymA\tFull Name\tsyn1,syn2\tssyn1, has comma".toList)
      ("FBgn0000001".toList) ("symA".toList)
      ["Full Name".toList, "syn1,syn2".toList, "ssyn1, has comma".toList]
      ("syn1".toList)
      (by decide) (by decide) (by decide) (by decide) (by decide)
  · exact c1_alias_contains_introducing_primary.2.2
      [("ID=FBgn1; parent=FBgn1;".toList, "ACGT".toList)] 0 (by decide)
      ("FBgn1".toList) (by decide)

/-- C2 counterexample: a malformed ID-mapping row (two tab-separated columns,
containing `FBgn`, not a comment) aborts `generate_inverted_fbid_dict` with
the uncaught `ValueError` — the following well-formed row is never parsed —
refuting the claim that both builders skip malformed rows and continue. -/
theorem c2_counterexample :
    generate_inverted_fbid_dict
        ["FBgn0000001\tDmel".toList, "s\tDmel\tFBgn0000002\tFBgn0000003".toList]
      = Except.error ("FBgn0000001\tDmel".toList) := by decide

/-- C2 (amended): only the symbol script applies per-row recovery — a kept
row whose column access raises `IndexError` (no columns after the ID, or
only a `Dmel` species column) is skipped, a diagnostic is appended, and
parsing continues with the remaining lines; the ID-updater instead raises
an uncaught `ValueError` on a qualifying row with fewer than four
tab-separated columns, aborting parsing of the whole file. -/
theorem c2_amended :
    (∀ (d : Idx) (diags : List Str) (line : Str) (rest : List Str),
       (strStartsWith ("FBgn".toList) (pyStrip line)
         || strStartsWith ("FBtr".toList) (pyStrip line)) = true →
       ((splitChar '\t' (pyStrip line)).tail = []
         ∨ (splitChar '\t' (pyStrip line)).tail = ["Dmel".toList]) →
       generate_inverted_symbol_aux d diags (line :: rest)
         = generate_inverted_symbol_aux d (diags ++ [pyStrip line]) rest)
  ∧ (∀ (acc : Idx × List Str) (line : Str) (rest : List Str),
       fbgnRowQualifies (pyStrip line) = true →
       (splitChar '\t' (pyStrip line)).length < 4 →
       generate_inverted_fbid_aux acc (line :: rest) = Except.error (pyStrip line)) := by
  constructor
  · intro d diags line rest hpre hcols
    exact generate_inverted_symbol_aux_diag_step d diags rest
      (symbolStep_malformed hpre hcols d)
  · intro acc line rest hq hshort
    exact generate_inverted_fbid_aux_abort hq hshort acc rest

/-- C2 witness: `c2_amended` applied to a concrete malformed row for each
script. -/
theorem c2_witness :
    generate_inverted_symbol_aux [] [] ["FBgn0000001\tDmel".toList, "x".toList]
      = generate_inverted_symbol_aux []
          ([] ++ [pyStrip ("FBgn0000001\tDmel".toList)]) ["x".toList]
  ∧ generate_inverted_fbid_aux ([], []) ["FBgn0000001\tDmel".toList]
      = Except.error (pyStrip ("FBgn0000001\tDmel".toList)) := by
  constructor
  · exact c2_amended.1 [] [] ("FBgn0000001\tDmel".toList) ["x".toList]
      (by decide) (by decide)
  · exact c2_amended.2 ([], []) ("FBgn0000001\tDmel".toList) [] (by decide) (by decide)

/-- C3: a query key absent from both the current-ID set and the inverted
index never raises: the ID-updater resolver emits `KEY\tNone` (the caught
`KeyError` branch) and the symbol resolver emits the bare key. -/
theorem c3_absent_key_sentinels (k : Str) (dF dS : Idx) (cur : List Str)
    (hcur : k ∉ cur) (hF : alookup dF k = none) (hS : alookup dS k = none) :
    resolve_fbid k dF cur = k ++ "\tNone".toList ∧ resolve_symbol k dS = k := by
  constructor
  · simp [resolve_fbid, hcur, hF]
  · simp [resolve_symbol, hS]

/-- C3 witness: `c3_absent_key_sentinels` at the unlisted key
`FBgn9999999` against empty indices. -/
theorem c3_witness :
    resolve_fbid ("FBgn9999999".toList) [] []
        = "FBgn9999999".toList ++ "\tNone".toList
  ∧ resolve_symbol ("FBgn9999999".toList) [] = "FBgn9999999".toList :=
  c3_absent_key_sentinels ("FBgn9999999".toList) [] [] []
    (by simp) rfl rfl

/-- C4: a query key in the ID-updater's current set resolves to the bare
key for every inverted dictionary — the index is not consulted even when
the key is also present there as a secondary key. -/
theorem c4_current_key_bare (k : Str) (d : Idx) (cur : List Str) (h : k ∈ cur) :
    resolve_fbid k d cur = k := by
  simp [resolve_fbid, h]

/-- C4 witness: `c4_current_key_bare` with a current ID that also occurs as
a secondary key of the dictionary. -/
theorem c4_witness :
    resolve_fbid ("FBgn0000002".toList)
        [("FBgn0000002".toList, ["FBgn0000001".toList])]
        ["FBgn0000002".toList]
      = "FBgn0000002".toList :=
  c4_current_key_bare ("FBgn0000002".toList)
    [("FBgn0000002".toList, ["FBgn0000001".toList])]
    ["FBgn0000002".toList] (by simp)

/-- C5 counterexample: a FASTA header carrying the same ID in both the
`parent=` and `ID=` attributes makes `read_fasta`'s index map that ID to
`[0, 0]` — the record index is appended twice, so duplicates do not
collapse in the FASTA extractor's mapping, refuting the claim's "including
the FASTA extractor" part. -/
theorem c5_counterexample :
    build_fasta_idx [("ID=FBgn1; parent=FBgn1;".toList, "ACGT".toList)]
        = [("FBgn1".toList, [0, 0])]
  ∧ fastaIdxInsert [("FBgn1".toList, [0])] ("FBgn1".toList) 0
        = [("FBgn1".toList, [0, 0])]
  ∧ [(("FBgn1".toList : Str), ([0, 0] : List Nat))] ≠ [("FBgn1".toList, [0])] := by
  refine ⟨by decide, by decide, by decide⟩

/-- C5 (amended): the two lookup scripts' indices have set semantics —
inserting a primary already associated with a secondary key leaves that
key's collection unchanged — but the FASTA extractor's header-ID index is
list-valued and appends the record index unconditionally. -/
theorem c5_amended :
    (∀ (p k : Str) (d : Idx) (s : List Str), alookup d k = some s → p ∈ s →
       alookup (insert_fbid p k d) k = some s)
  ∧ (∀ (sym fb : Str) (d : Idx) (s : List Str), alookup d sym = some s → fb ∈ s →
       alookup (insert_symbol sym fb d) sym = some s)
  ∧ (∀ (idx : FastaIdx) (h : Str) (i : Nat) (l : List Nat), alookup idx h = some l →
       alookup (fastaIdxInsert idx h i) h = some (l ++ [i])) := by
  have parta : ∀ (p k : Str) (d : Idx) (s : List Str), alookup d k = some s →
      p ∈ s → alookup (insert_fbid p k d) k = some s := by
    intro p k d s hs hp
    by_cases hk : k = []
    · subst hk
      simp only [insert_fbid, if_pos rfl]
      exact hs
    · unfold insert_fbid
      rw [if_neg hk, hs]
      change alookup (aset d k (setAdd s p)) k = some s
      have hadd : setAdd s p = s := by simp [setAdd, hp]
      rw [hadd]
      exact alookup_aset_self hs s
  refine ⟨parta, ?_, ?_⟩
  · intro sym fb d s hs hf
    rw [insert_symbol_eq]
    exact parta fb sym d s hs hf
  · intro idx h i l hl
    unfold fastaIdxInsert
    rw [hl]
    exact alookup_aset_self hl _

/-- C5 witness: `c5_amended` at concrete indices — re-adding a present
primary leaves the dict entries unchanged, while the FASTA insert appends. -/
theorem c5_witness :
    alookup (insert_fbid ("FBgn2".toList) ("FBgn99".toList)
        [("FBgn99".toList, ["FBgn2".toList])]) ("FBgn99".toList)
      = some ["FBgn2".toList]
  ∧ alookup (insert_symbol ("symA".toList) ("FBgn1".toList)
        [("symA".toList, ["FBgn1".toList])]) ("symA".toList)
      = some ["FBgn1".toList]
  ∧ alookup (fastaIdxInsert [("FBgn1".toList, [0])] ("FBgn1".toList) 0)
        ("FBgn1".toList)
      = some ([0] ++ [0]) := by
  refine ⟨?_, ?_, ?_⟩
  · exact c5_amended.1 ("FBgn2".toList) ("FBgn99".toList)
      [("FBgn99".toList, ["FBgn2".toList])] ["FBgn2".toList] (by decide) (by decide)
  · exact c5_amended.2.1 ("symA".toList) ("FBgn1".toList)
      [("symA".toList, ["FBgn1".toList])] ["FBgn1".toList] (by decide) (by decide)
  · exact c5_amended.2.2 [("FBgn1".toList, [0])] ("FBgn1".toList) 0 [0] (by decide)

/-- C6 counterexample: the line `FB1a23` is retained by `read_id_file`
(`FLYBASE_ID_REGEX` accepts `FB` + any two word characters + digits) even
though it does not match the claimed pattern of `FB` + two letters +
digits, refuting the claim's "two letters". -/
theorem c6_counterexample :
    read_id_file ["FB1a23".toList] = ["FB1a23".toList]
  ∧ specLetterMatch ("FB1a23".toList) = false := by
  refine ⟨by decide, by decide⟩

/-- C6 (amended): a line of a FlyBase-ID list is retained (trimmed) in the
returned ID set if and only if it decomposes as optional whitespace, `FB`,
two word characters (letter, digit, or underscore), one or more digits,
and optional trailing whitespace; all other lines are dropped. -/
theorem c6_amended (lines : List Str) (s : Str) :
    s ∈ read_id_file lines ↔
      ∃ l, l ∈ lines ∧ s = pyStrip l ∧ pyFBPattern l := by
  rw [mem_read_id_file]
  constructor
  · rintro ⟨l, h1, h2, h3⟩
    exact ⟨l, h1, h3, (matchFlybaseId_iff l).mp h2⟩
  · rintro ⟨l, h1, h2, h3⟩
    exact ⟨l, h1, (matchFlybaseId_iff l).mpr h3, h2⟩

/-- C7: the scenario row
`FBgn0000001\tDmel\tsymA\tFull Name\tsyn1,syn2\tssyn1, has comma` yields
exactly the five index entries of the spec, each mapping to
`{FBgn0000001}`: the comma without a following space splits `syn1,syn2`,
the comma followed by a space keeps `ssyn1, has comma` whole. -/
theorem c7_scenario :
    generate_inverted_symbol_dict
        ["FBgn0000001\tDmel\tsymA\tFull Name\tsyn1,syn2\tssyn1, has comma".toList]
      = ([("symA".toList, ["FBgn0000001".toList]),
          ("Full Name".toList, ["FBgn0000001".toList]),
          ("syn1".toList, ["FBgn0000001".toList]),
          ("syn2".toList, ["FBgn0000001".toList]),
          ("ssyn1, has comma".toList, ["FBgn0000001".toList])], []) := by decide

/-- C8: requesting a FlyBase ID that is not a key of the in-memory index
makes `fbid_to_fasta` fail with the `KeyError` (modelled as
`Except.error`), rather than emitting any sentinel line. -/
theorem c8_missing_key_error (ids : List Str) (fasta : List (Str × Str))
    (index : FastaIdx) (fbid : Str) (hmem : fbid ∈ ids)
    (hnone : alookup index fbid = none) :
    ∃ e, fbid_to_fasta ids fasta index = Except.error e :=
  fbid_to_fasta_error ids fasta index hmem hnone

/-- C8 witness: `c8_missing_key_error` at a concrete missing ID. -/
theorem c8_witness :
    ∃ e, fbid_to_fasta ["FBgn2".toList] [] [] = Except.error e :=
  c8_missing_key_error ["FBgn2".toList] [] [] ("FBgn2".toList) (by simp) rfl

/-- C9: writing a list of selected records with the FASTA-extraction writer
(header prefixed with `>`, sequence wrapped at width 80) and parsing the
written text back yields exactly the selected (header, sequence) pairs, for
records whose headers contain no newline and whose sequences consist of
non-whitespace characters other than `>` and `-` (the domain on which
`textwrap.wrap` is plain 80-character chunking). -/
theorem c9_roundtrip (rs : List (Str × Str))
    (h : ∀ r ∈ rs, '\n' ∉ r.1 ∧ ∀ c ∈ r.2,
          isPySpace c = false ∧ ¬(c = '>') ∧ ¬(c = '-')) :
    parseFasta (write_fasta_records rs) = rs := by
  unfold parseFasta parseFastaLines
  rw [splitLines_write rs (fun r hr => ⟨(h r hr).1, fun c hc => ((h r hr).2 c hc).1⟩)]
  exact parse_linesOf rs _ (Nat.le_refl _)
    (fun r hr c hc => ⟨((h r hr).2 c hc).1, ((h r hr).2 c hc).2.1⟩)

/-- C9 witness: `c9_roundtrip` on two concrete records, one with a sequence
longer than the 80-column wrap width and one empty sequence. -/
theorem c9_witness :
    parseFasta (write_fasta_records
        [("h1 ID=FBgn1;".toList,
          ("ACGTACGTACGTACGTACGTACGTACGTACGTACGTACGTACGTACGTACGTACGTACGTACGT" ++
           "ACGTACGTACGTACGTACGT").toList),
         ("h2".toList, [])])
      = [("h1 ID=FBgn1;".toList,
          ("ACGTACGTACGTACGTACGTACGTACGTACGTACGTACGTACGTACGTACGTACGTACGTACGT" ++
           "ACGTACGTACGTACGTACGT").toList),
         ("h2".toList, [])] :=
  c9_roundtrip
    [("h1 ID=FBgn1;".toList,
      ("ACGTACGTACGTACGTACGTACGTACGTACGTACGTACGTACGTACGTACGTACGTACGTACGT" ++
       "ACGTACGTACGTACGTACGT").toList),
     ("h2".toList, [])]
    (by decide)

/-- C10: inserting an empty (falsy) secondary/alias key is a no-op for both
scripts' insert functions, and consequently no inverted index either script
builds contains the empty string as a key. -/
theorem c10_empty_key_noop :
    (∀ (p : Str) (d : Idx), insert_fbid p [] d = d)
  ∧ (∀ (fb : Str) (d : Idx), insert_symbol [] fb d = d)
  ∧ (∀ (lines : List Str) (d : Idx) (cur : List Str),
       generate_inverted_fbid_dict lines = Except.ok (d, cur) →
       alookup d [] = none)
  ∧ (∀ (lines : List Str),
       alookup (generate_inverted_symbol_dict lines).1 [] = none) := by
  refine ⟨?_, ?_, ?_, ?_⟩
  · intro p d
    simp [insert_fbid]
  · intro fb d
    simp [insert_symbol]
  · intro lines d cur h
    exact generate_inverted_fbid_aux_no_nil lines [] [] (d, cur) h rfl
  · intro lines
    exact generate_inverted_symbol_aux_no_nil lines [] [] rfl

/-- C10 witness: `c10_empty_key_noop` at concrete inserts and at indices
built from rows with empty comma-separated segments. -/
theorem c10_witness :
    insert_fbid ("FBgn2".toList) [] [("a".toList, ["b".toList])]
        = [("a".toList, ["b".toList])]
  ∧ insert_symbol [] ("FBgn2".toList) [] = []
  ∧ alookup [("FBgn99".toList, ["FBgn2".toList])] [] = none
  ∧ alookup (generate_inverted_symbol_dict
        ["FBgn0000001\tDmel\tsymA\t\tsyn1,,syn2".toList]).1 [] = none := by
  refine ⟨?_, ?_, ?_, ?_⟩
  · exact c10_empty_key_noop.1 ("FBgn2".toList) [("a".toList, ["b".toList])]
  · exact c10_empty_key_noop.2.1 ("FBgn2".toList) []
  · exact c10_empty_key_noop.2.2.1 ["sym\tDmel\tFBgn2\tFBgn99,".toList]
      [("FBgn99".toList, ["FBgn2".toList])] ["FBgn2".toList] (by decide)
  · exact c10_empty_key_noop.2.2.2 ["FBgn0000001\tDmel\tsymA\t\tsyn1,,syn2".toList]
